import Mathlib

/-!
Verification of the GPIO aggregator / forwarder engine
(`drivers/gpio/gpio-aggregator.c`, `include/linux/gpio/forwarder.h`).

The C code is shallowly embedded: each C function becomes a Lean
definition over explicit state.  Kernel library helpers that are part of
the kernel but outside the studied files (`next_arg`, `get_options`,
`bitmap_parselist`, `idr_alloc`) are modelled from the specification, as
marked in their doc comments.  Machine integers are modelled as `Nat`
(all quantities involved are small and non-negative); C error codes are
modelled as negative `Int` values through `Except Int`.  C strings are
modelled as `List Char` so that all string processing is structurally
recursive and computable by the kernel.
-/

set_option maxRecDepth 8192

namespace GpioAggr

/-- Linux error number EINVAL as a negative return code. -/
def EINVAL : Int := -22

/-- Linux error number ERANGE as a negative return code. -/
def ERANGE : Int := -34

/-- Linux error number EEXIST as a negative return code. -/
def EEXIST : Int := -17

/-- U16_MAX, used by `aggr_parse` as the hwnum of a named GPIO line. -/
def U16_MAX : Nat := 65535

/-! ## Line reference parser (`aggr_parse` and helpers) -/

/-- Split a character list at every occurrence of the separator
character (auxiliary for the modelled kernel string helpers). -/
def splitOnChar (c : Char) : List Char → List (List Char)
  | [] => [[]]
  | a :: rest =>
    match splitOnChar c rest with
    | [] => [[a]]
    | t :: ts => if a = c then [] :: t :: ts else (a :: t) :: ts

/-- Modelled from the spec: `next_arg`-based tokenization.  The request
string is a sequence of space-separated tokens; empty tokens produced by
consecutive or surrounding spaces are skipped. -/
def tokenize (s : String) : List (List Char) :=
  (splitOnChar ' ' s.data).filter (fun t => t ≠ [])

/-- Decimal digit value of a character, if it is a digit. -/
def digitVal (c : Char) : Option Nat :=
  if '0' ≤ c ∧ c ≤ '9' then some (c.toNat - '0'.toNat) else none

/-- Accumulating decimal parser over a character list. -/
def parseNatGo (acc : Nat) : List Char → Option Nat
  | [] => some acc
  | c :: cs =>
    match digitVal c with
    | some d => parseNatGo (acc * 10 + d) cs
    | none => none

/-- A non-empty all-digit character list parsed as a decimal number. -/
def parseNatTok : List Char → Option Nat
  | [] => none
  | l => parseNatGo 0 l

/-- Modelled from the spec: one item of a list expression, either a
single decimal integer `n` (yielding the range `n..n`) or a range
`a-b`. -/
def parseRangeItem (l : List Char) : Option (Nat × Nat) :=
  match splitOnChar '-' l with
  | [a] =>
    match parseNatTok a with
    | some n => some (n, n)
    | none => none
  | [a, b] =>
    match parseNatTok a, parseNatTok b with
    | some m, some k => some (m, k)
    | _, _ => none
  | _ => none

/-- Modelled from the spec: a list expression is a non-empty
comma-separated sequence of integers and integer ranges.  Returns the
parsed ranges, or `none` if the token does not parse entirely. -/
def parseItems (l : List Char) : Option (List (Nat × Nat)) :=
  if l = [] then none
  else (splitOnChar ',' l).mapM parseRangeItem

/-- Modelled from the spec: the `get_options` full-parse test used by
`aggr_parse` for disambiguation — a token is a list expression iff it
parses entirely as integers/ranges (in C: at least one integer parsed
and no trailing characters). -/
def isListExpr (l : List Char) : Bool :=
  (parseItems l).isSome

/-- Modelled from the spec: `bitmap_parselist(s, bitmap, nbits)`.
Parses a comma-separated list of integers and ranges and sets the
corresponding bits of a bitmap of `nbits` bits.  Malformed input or a
reversed range yields `-EINVAL`; a bit number `≥ nbits` yields
`-ERANGE`.  The resulting bitmap is returned as the ascending list of
set bit positions, since the caller in `aggr_parse` only consumes it
through `for_each_set_bit` (which visits each set bit once, in
ascending order). -/
def bitmapParselist (l : List Char) (nbits : Nat) : Except Int (List Nat) :=
  match parseItems l with
  | none => .error EINVAL
  | some rs =>
    if rs.any (fun r => r.2 < r.1) then .error EINVAL
    else if rs.any (fun r => nbits ≤ r.2) then .error ERANGE
    else .ok ((List.range nbits).filter (fun i => rs.any (fun r => r.1 ≤ i ∧ i ≤ r.2)))

/-- AGGREGATOR_MAX_GPIOS: size of the scratch bitmap used per list
expression in `aggr_parse`. -/
def AGGREGATOR_MAX_GPIOS : Nat := 512

/-- One entry of the gpiod lookup table, as built by `aggr_add_gpio`
with `GPIO_LOOKUP_IDX(key, hwnum, NULL, idx, 0)` (the constant `con_id`
and flags fields are omitted). -/
structure GLookup where
  key : List Char
  hwnum : Nat
  idx : Nat
deriving DecidableEq, Repr

/-- The tokenizing loop of `aggr_parse`.  The C loop reads a label with
`next_arg` and then, inside `while (*args)`, reads the next token and
either consumes it as a list expression or reinterprets it as the next
label; here the same control flow is expressed one token at a time: the
`Option` argument is the pending label (`none` when the next token will
start a new group), `n` is the running line count and the accumulator
holds the lookup entries built so far.  A pending label left over when
the tokens run out is silently dropped, exactly as in the C loop
(whose condition is tested after each `next_arg`).  The token after a
pending label is consumed as a list expression iff `get_options`
accepts it entirely, otherwise the pending label is emitted as a single
named line (hwnum = U16_MAX) and the token becomes the next label. -/
def aggrLoop : List (List Char) → Option (List Char) → Nat → List GLookup → Except Int (List GLookup × Nat)
  | [], _, n, acc => .ok (acc, n)
  | tok :: rest, none, n, acc => aggrLoop rest (some tok) n acc
  | offsets :: rest, some name, n, acc =>
    if isListExpr offsets then
      match bitmapParselist offsets AGGREGATOR_MAX_GPIOS with
      | .error e => .error e
      | .ok bm =>
        aggrLoop rest none (n + bm.length) (acc ++ bm.mapIdx (fun k i => ⟨name, i, n + k⟩))
    else
      aggrLoop rest (some offsets) (n + 1) (acc ++ [⟨name, U16_MAX, n⟩])

/-- `aggr_parse`: tokenize-and-loop over the request, then reject a
request that produced zero lines with `-EINVAL` ("No GPIOs
specified"). -/
def aggrParse (toks : List (List Char)) : Except Int (List GLookup) :=
  match aggrLoop toks none 0 [] with
  | .error e => .error e
  | .ok (acc, n) => if n = 0 then .error EINVAL else .ok acc

/-! ## Aggregator registry (`new_device_store` and the idr) -/

/-- The registry state: `ids` is the set of allocated idr ids (most
recent first), `published` the ids of registered platform devices. -/
structure Registry where
  ids : List Nat
  published : List Nat
deriving DecidableEq, Repr

/-- Modelled from the spec: `idr_alloc` returns the smallest
non-negative integer not currently in use. -/
def idrAlloc (ids : List Nat) : Nat :=
  ((List.range (ids.length + 1)).filter (fun i => ¬ ids.contains i)).headD 0

/-- `new_device_store`: allocate an id under the registry lock, build
the lookup-table device name, run `aggr_parse`, and on parse failure
unwind by removing the id again; on success register the platform
device.  Memory allocation is modelled as always succeeding. -/
def new_device_store (reg : Registry) (buf : String) : Except Int Nat × Registry :=
  let id := idrAlloc reg.ids
  let ids1 := id :: reg.ids
  match aggrParse (tokenize buf) with
  | .error e => (.error e, { reg with ids := ids1.erase id })
  | .ok _ => (.ok id, { ids := ids1, published := reg.published ++ [id] })

/-! ## The forwarder (`gpiochip_fwd`) -/

/-- The external line-provider capability, indexed by abstract handle
(`gpio_desc` pointer) numbers: per-handle logical value, sleep
capability and active-low polarity, plus an optional injected failure
for the batched read path. -/
structure Provider where
  vals : Nat → Bool
  cansleep : Nat → Bool
  activeLow : Nat → Bool
  readErr : Option Int

/-- `struct gpiochip_fwd_timing`. -/
structure FwdTiming where
  ramp_up_us : Nat
  ramp_down_us : Nat
deriving DecidableEq, Repr

/-- How a ramp delay is performed: `fsleep` when the chip can sleep,
`udelay` busy wait otherwise. -/
inductive WaitKind
  | sleep
  | busy
deriving DecidableEq, Repr

/-- Which lock `gpio_fwd_register` initializes. -/
inductive LockKind
  | mutex
  | spin
deriving DecidableEq, Repr

/-- `struct gpiochip_fwd` together with the embedded `gpio_chip`
fields used by the code: the declared line count `ngpio`, the per-line
descriptor slots (`none` = not yet bound), the `can_sleep` flag and the
optional per-line delay table. -/
structure FwdState where
  ngpio : Nat
  descs : List (Option Nat)
  can_sleep : Bool
  delay_timings : Option (List FwdTiming)
deriving DecidableEq, Repr

/-- `devm_gpio_fwd_alloc`: a fresh forwarder with `ngpio` unbound
slots, `can_sleep = false` and no delay table. -/
def freshFwd (ngpios : Nat) : FwdState :=
  { ngpio := ngpios
    descs := List.replicate ngpios none
    can_sleep := false
    delay_timings := none }

/-- The descriptor bound at a position (`fwd->descs[i]`);
dereferencing an unbound slot yields the junk handle 0. -/
def handleAt (fwd : FwdState) (i : Nat) : Nat :=
  (fwd.descs.getD i none).getD 0

/-- The compaction loop `for_each_set_bit(i, mask, ngpio)
descs[j++] = fwd->descs[i]`: keep, in ascending position order, the
elements whose mask bit is set. -/
def compactSel {α : Type} : List Bool → List α → List α
  | true :: m, d :: ds => d :: compactSel m ds
  | false :: m, _ :: ds => compactSel m ds
  | _, _ => []

/-- The expansion loop `for_each_set_bit(i, mask, ngpio)
__assign_bit(i, bits, test_bit(j++, values))`: walk the caller's bits,
replacing each masked position by the next bit of the compacted value
region, leaving unmasked positions unchanged. -/
def expandGo (values : List Bool) : List Bool → List Bool → Nat → List Bool
  | [], bits, _ => bits
  | true :: m, _ :: bs, j => values.getD j false :: expandGo values m bs (j + 1)
  | false :: m, b :: bs, j => b :: expandGo values m bs j
  | _ :: _, [], _ => []

/-- `gpiod_get_array_value(_cansleep)(j, descs, NULL, values)`: either
the injected provider failure, or the first `j` bits of `values`
replaced by the values of the listed handles (the remaining bits are
left untouched). -/
def gpiod_get_array_value (P : Provider) (ds : List Nat) (values : List Bool) : Except Int (List Bool) :=
  match P.readErr with
  | some e => .error e
  | none => .ok (ds.map P.vals ++ values.drop ds.length)

/-- `gpio_fwd_get_multiple`: clear the value region of the scratch
buffer, compact the descriptors selected by `mask` in ascending
position order, issue one provider-level batched read, and on success
expand the value region back into the caller's bits at the original
positions.  On failure the error is returned and the caller's bits are
not updated (the partial provider results only ever reach the scratch
buffer). -/
def gpio_fwd_get_multiple (P : Provider) (fwd : FwdState) (mask bits : List Bool) :
    Except Int (List Bool) :=
  let values0 := List.replicate fwd.ngpio false
  let ds := (compactSel mask fwd.descs).map (fun o => o.getD 0)
  match gpiod_get_array_value P ds values0 with
  | .error e => .error e
  | .ok values => .ok (expandGo values mask bits 0)

/-- `gpio_fwd_get_multiple_locked`: take the mutex when the chip can
sleep, the spinlock otherwise, and run `gpio_fwd_get_multiple` under
it.  Locking serializes access to the scratch buffer; the computed
result is that of `gpio_fwd_get_multiple` in both branches. -/
def gpio_fwd_get_multiple_locked (P : Provider) (fwd : FwdState) (mask bits : List Bool) :
    Except Int (List Bool) :=
  if fwd.can_sleep then gpio_fwd_get_multiple P fwd mask bits
  else gpio_fwd_get_multiple P fwd mask bits

/-- `gpio_fwd_delay`: select the ramp-up delay on a rising transition
(as seen through the line's active-low polarity), the ramp-down delay
on a falling one; a zero delay performs no wait at all, otherwise
`fsleep` (sleeping) or `udelay` (busy) depending on `can_sleep`. -/
def gpio_fwd_delay (P : Provider) (fwd : FwdState) (off : Nat) (v : Bool) :
    Option (WaitKind × Nat) :=
  let is_active_low := P.activeLow (handleAt fwd off)
  let t := (fwd.delay_timings.getD []).getD off ⟨0, 0⟩
  let delay_us := if (!is_active_low && v) || (is_active_low && !v)
                  then t.ramp_up_us else t.ramp_down_us
  if delay_us = 0 then none
  else some (if fwd.can_sleep then WaitKind.sleep else WaitKind.busy, delay_us)

/-- `gpiod_set_value(_cansleep)`: update one handle's logical value. -/
def gpiod_set_value (P : Provider) (h : Nat) (v : Bool) : Provider :=
  { P with vals := fun x => if x = h then v else P.vals x }

/-- `gpio_fwd_set`: write the single line, then perform the ramp delay
iff a delay table is present.  Returns the new provider state and the
wait performed (if any). -/
def gpio_fwd_set (P : Provider) (fwd : FwdState) (off : Nat) (v : Bool) :
    Provider × Option (WaitKind × Nat) :=
  let P2 := gpiod_set_value P (handleAt fwd off) v
  match fwd.delay_timings with
  | none => (P2, none)
  | some _ => (P2, gpio_fwd_delay P fwd off v)

/-- `gpiod_set_array_value(_cansleep)(j, descs, NULL, values)`: write
each listed handle's value, in list order. -/
def gpiod_set_array_value (P : Provider) (ds : List Nat) (vs : List Bool) : Provider :=
  (ds.zip vs).foldl (fun q hv => gpiod_set_value q hv.1 hv.2) P

/-- `gpio_fwd_set_multiple`: compact the masked descriptors and their
target bits into the scratch buffer and issue one provider-level
batched write.  Returns the new provider state and the (empty) list of
ramp waits performed — this path never consults the delay table. -/
def gpio_fwd_set_multiple (P : Provider) (fwd : FwdState) (mask bits : List Bool) :
    Provider × List (WaitKind × Nat) :=
  let ds := (compactSel mask fwd.descs).map (fun o => o.getD 0)
  let vs := compactSel mask bits
  (gpiod_set_array_value P ds vs, [])

/-- `gpio_fwd_set_multiple_locked`: take the mutex when the chip can
sleep, the spinlock otherwise, and run `gpio_fwd_set_multiple` under
it. -/
def gpio_fwd_set_multiple_locked (P : Provider) (fwd : FwdState) (mask bits : List Bool) :
    Provider × List (WaitKind × Nat) :=
  if fwd.can_sleep then gpio_fwd_set_multiple P fwd mask bits
  else gpio_fwd_set_multiple P fwd mask bits

/-- `gpio_fwd_add_gpio_desc`, exactly as written in the source: the
range check is `offset > chip->ngpio` (note: not `>=`), then the
occupied-slot check, then `can_sleep |= gpiod_cansleep(desc)` and the
store `fwd->descs[offset] = desc` (a store at `offset = ngpio` is out
of bounds of the `ngpio`-element array in C; on the Lean list it is a
no-op). -/
def gpio_fwd_add_gpio_desc (P : Provider) (fwd : FwdState) (desc : Nat) (off : Nat) :
    Except Int FwdState :=
  if fwd.ngpio < off then .error EINVAL
  else if (fwd.descs.getD off none).isSome then .error EEXIST
  else .ok { fwd with
              can_sleep := fwd.can_sleep || P.cansleep desc
              descs := fwd.descs.set off (some desc) }

/-- The count of bound descriptors computed by the loop at the top of
`gpio_fwd_register`. -/
def boundCount (fwd : FwdState) : Nat :=
  (List.range fwd.ngpio).countP (fun i => (fwd.descs.getD i none).isSome)

/-- `gpio_fwd_register`: force `can_sleep` if some slots are still
unbound, then initialize the mutex if the chip can sleep and the
spinlock otherwise.  Returns the final state and the chosen lock
kind. -/
def gpio_fwd_register (fwd : FwdState) : FwdState × LockKind :=
  let cs := fwd.can_sleep || decide (boundCount fwd ≠ fwd.ngpio)
  ({ fwd with can_sleep := cs }, if cs then LockKind.mutex else LockKind.spin)

/-- The descriptor-adding loop of `gpio_fwd_create`: add each
(desc, offset) pair in turn, aborting on the first failure. -/
def addManyE (P : Provider) (fwd : FwdState) : List (Nat × Nat) → Except Int FwdState
  | [] => .ok fwd
  | c :: cs =>
    match gpio_fwd_add_gpio_desc P fwd c.1 c.2 with
    | .error e => .error e
    | .ok f2 => addManyE P f2 cs

/-- Concrete provider for witnesses: all lines read false, none can
sleep, none active-low, no injected read failure. -/
def provider0 : Provider :=
  { vals := fun _ => false
    cansleep := fun _ => false
    activeLow := fun _ => false
    readErr := none }

/-- Concrete one-line forwarder with the delay feature and ramp config
(rising = 0, falling = 200us) on position 0. -/
def fwdD : FwdState :=
  { ngpio := 1
    descs := [some 5]
    can_sleep := false
    delay_timings := some [⟨0, 200⟩] }

/-- Concrete one-line forwarder with a single bound non-sleeping
descriptor, as produced by a successful `gpio_fwd_add_gpio_desc`. -/
def fwdW : FwdState :=
  { ngpio := 1
    descs := [some 5]
    can_sleep := false
    delay_timings := none }

/-- Concrete two-line forwarder with distinct bound descriptors and a
configured delay table. -/
def fwdTwo : FwdState :=
  { ngpio := 2
    descs := [some 4, some 9]
    can_sleep := false
    delay_timings := some [⟨1, 1⟩, ⟨2, 2⟩] }

/-- Concrete provider whose line 9 reads true and all others false. -/
def providerV : Provider :=
  { vals := fun h => decide (h = 9)
    cansleep := fun _ => false
    activeLow := fun _ => false
    readErr := none }

/-- Proof-side reformulation of `expandGo` that consumes the value
list instead of indexing into it (equal to `expandGo` when started at
index 0, see `expandGo_eq_consume`). -/
def expandConsume : List Bool → List Bool → List Bool → List Bool
  | _, [], bits => bits
  | vs, true :: m, _ :: bs => vs.headD false :: expandConsume vs.tail m bs
  | vs, false :: m, b :: bs => b :: expandConsume vs m bs
  | _, _ :: _, [] => []

/-! ## Helper lemmas -/

/-- The head (with default) of a dropped list is an indexed lookup. -/
theorem headD_drop (l : List Bool) : ∀ j, (l.drop j).headD false = l.getD j false := by
  induction l with
  | nil => intro j; cases j <;> rfl
  | cons a t ih =>
    intro j
    cases j with
    | zero => rfl
    | succ j => simp [ih j]

/-- `expandGo` starting at index `j` is `expandConsume` on the value
list with its first `j` elements dropped. -/
theorem expandGo_eq_consume (vs : List Bool) :
    ∀ (m bs : List Bool) (j : Nat), expandGo vs m bs j = expandConsume (vs.drop j) m bs := by
  intro m
  induction m with
  | nil => intro bs j; rfl
  | cons t m ih =>
    intro bs j
    cases t
    · cases bs with
      | nil => rfl
      | cons b bs => simp [expandGo, expandConsume, ih]
    · cases bs with
      | nil => rfl
      | cons b bs =>
        simp [expandGo, expandConsume, ih bs (j + 1), headD_drop, List.tail_drop]

/-- `expandConsume` preserves the length of the caller's bits. -/
theorem expandConsume_length :
    ∀ (m bs vs : List Bool), bs.length = m.length →
      (expandConsume vs m bs).length = bs.length := by
  intro m
  induction m with
  | nil => intro bs vs _; rfl
  | cons t m ih =>
    intro bs vs hb
    cases bs with
    | nil => simp at hb
    | cons b bs =>
      cases t
      · simpa [expandConsume] using ih bs vs (by simpa using hb)
      · simpa [expandConsume] using ih bs vs.tail (by simpa using hb)

/-- Expansion inverts compaction: expanding a value list built over
the compacted selection puts, at every masked position, the image of
that position's descriptor, and leaves every unmasked position's bit
unchanged. -/
theorem expandConsume_spec (f : Option Nat → Bool) :
    ∀ (m : List Bool) (descs : List (Option Nat)) (bits rest : List Bool) (i : Nat),
      descs.length = m.length → bits.length = m.length → i < m.length →
      (expandConsume ((compactSel m descs).map f ++ rest) m bits).getD i false =
        if m.getD i false then f (descs.getD i none) else bits.getD i false := by
  intro m
  induction m with
  | nil => intro descs bits rest i _ _ hi; exact absurd hi (by simp)
  | cons t m ih =>
    intro descs bits rest i hd hb hi
    cases descs with
    | nil => simp at hd
    | cons d ds =>
      cases bits with
      | nil => simp at hb
      | cons b bs =>
        cases t
        · cases i with
          | zero => simp [compactSel, expandConsume]
          | succ i =>
            have := ih ds bs rest i (by simpa using hd) (by simpa using hb)
              (by simpa [Nat.succ_lt_succ_iff] using hi)
            simpa [compactSel, expandConsume] using this
        · cases i with
          | zero => simp [compactSel, expandConsume]
          | succ i =>
            have := ih ds bs rest i (by simpa using hd) (by simpa using hb)
              (by simpa [Nat.succ_lt_succ_iff] using hi)
            simpa [compactSel, expandConsume] using this

/-- Elimination for a successful `gpio_fwd_add_gpio_desc`: the new
state ORs the descriptor's sleep capability into `can_sleep` and binds
the slot. -/
theorem add_gpio_desc_ok_elim {P : Provider} {fwd : FwdState} {d off : Nat} {f : FwdState}
    (h : gpio_fwd_add_gpio_desc P fwd d off = .ok f) :
    f = { fwd with can_sleep := fwd.can_sleep || P.cansleep d
                   descs := fwd.descs.set off (some d) } := by
  unfold gpio_fwd_add_gpio_desc at h
  by_cases h1 : fwd.ngpio < off
  · rw [if_pos h1] at h
    exact absurd h (by simp)
  · rw [if_neg h1] at h
    by_cases h2 : (fwd.descs.getD off none).isSome = true
    · rw [if_pos h2] at h
      exact absurd h (by simp)
    · rw [if_neg h2] at h
      exact ((Except.ok.injEq _ _).mp h).symm

/-- Through a successful run of the descriptor-adding loop, the line
count and slot-array length are preserved, and `can_sleep` accumulates
exactly the OR of the added descriptors' sleep capabilities. -/
theorem addManyE_state {P : Provider} :
    ∀ (calls : List (Nat × Nat)) (fwd f : FwdState),
      addManyE P fwd calls = .ok f →
      f.ngpio = fwd.ngpio ∧ f.descs.length = fwd.descs.length ∧
      f.can_sleep = (fwd.can_sleep || calls.any (fun c => P.cansleep c.1)) := by
  intro calls
  induction calls with
  | nil =>
    intro fwd f h
    replace h : Except.ok fwd = Except.ok f := h
    obtain rfl := (Except.ok.injEq _ _).mp h
    simp
  | cons c cs ih =>
    intro fwd f h
    unfold addManyE at h
    cases hc : gpio_fwd_add_gpio_desc P fwd c.1 c.2 with
    | error e =>
      rw [hc] at h
      exact absurd h (by simp)
    | ok f2 =>
      rw [hc] at h
      replace h : addManyE P f2 cs = Except.ok f := h
      obtain ⟨hn, hl, hcs⟩ := ih f2 f h
      obtain rfl := add_gpio_desc_ok_elim hc
      refine ⟨by simpa using hn, by simpa using hl, ?_⟩
      rw [hcs]
      simp [Bool.or_assoc]

/-- One step of the batched write: writing the head pair first. -/
theorem set_array_cons (P : Provider) (x : Nat) (y : Bool) (xs : List Nat) (ys : List Bool) :
    gpiod_set_array_value P (x :: xs) (y :: ys) =
      gpiod_set_array_value (gpiod_set_value P x y) xs ys := rfl

/-- A handle not in the batched-write list keeps its value. -/
theorem set_array_vals_notin (h : Nat) :
    ∀ (ds : List Nat) (vs : List Bool) (P : Provider), h ∉ ds →
      (gpiod_set_array_value P ds vs).vals h = P.vals h := by
  intro ds
  induction ds with
  | nil => intro vs P _; rfl
  | cons d ds ih =>
    intro vs P hmem
    have hne : h ≠ d := by simp at hmem; exact hmem.1
    have h2 : h ∉ ds := by simp at hmem; exact hmem.2
    cases vs with
    | nil => rfl
    | cons v vs =>
      rw [set_array_cons, ih vs _ h2]
      simp [gpiod_set_value, hne]

/-- The batched write over a compacted selection with pairwise
distinct handles sets every masked position's handle to that
position's bit. -/
theorem set_array_compact_spec (f : Option Nat → Nat) :
    ∀ (m : List Bool) (descs : List (Option Nat)) (bits : List Bool) (P : Provider) (i : Nat),
      ((compactSel m descs).map f).Nodup →
      descs.length = m.length → bits.length = m.length →
      i < m.length → m.getD i false = true →
      (gpiod_set_array_value P ((compactSel m descs).map f) (compactSel m bits)).vals
          (f (descs.getD i none)) = bits.getD i false := by
  intro m
  induction m with
  | nil => intro descs bits P i _ _ _ hi _; exact absurd hi (by simp)
  | cons t m ih =>
    intro descs bits P i hnd hd hb hi hmi
    cases descs with
    | nil => simp at hd
    | cons d ds =>
      cases bits with
      | nil => simp at hb
      | cons b bs =>
        cases t
        · cases i with
          | zero => simp at hmi
          | succ i =>
            have := ih ds bs P i (by simpa [compactSel] using hnd)
              (by simpa using hd) (by simpa using hb)
              (by simpa [Nat.succ_lt_succ_iff] using hi) (by simpa using hmi)
            simpa [compactSel] using this
        · have hnd2 := hnd
          simp only [compactSel, List.map_cons, List.nodup_cons] at hnd2
          cases i with
          | zero =>
            simp only [compactSel, List.map_cons, set_array_cons, List.getD_cons_zero]
            rw [set_array_vals_notin (f d) _ _ _ hnd2.1]
            simp [gpiod_set_value]
          | succ i =>
            have := ih ds bs (gpiod_set_value P (f d) b) i hnd2.2
              (by simpa using hd) (by simpa using hb)
              (by simpa [Nat.succ_lt_succ_iff] using hi) (by simpa using hmi)
            simpa [compactSel, set_array_cons] using this

/-- A successful `bitmap_parselist` result is the ascending filter of
the bit range by the parsed ranges. -/
theorem bitmapParselist_ok_shape {l : List Char} {nbits : Nat} {bm : List Nat}
    (h : bitmapParselist l nbits = .ok bm) :
    ∃ rs : List (Nat × Nat),
      bm = (List.range nbits).filter (fun i => rs.any (fun r => r.1 ≤ i ∧ i ≤ r.2)) := by
  unfold bitmapParselist at h
  cases hp : parseItems l with
  | none => rw [hp] at h; exact absurd h (by simp)
  | some rs =>
    rw [hp] at h
    replace h :
        (if (rs.any fun r => decide (r.2 < r.1)) = true then Except.error EINVAL
         else if (rs.any fun r => decide (nbits ≤ r.2)) = true then Except.error ERANGE
         else Except.ok ((List.range nbits).filter
                (fun i => rs.any fun r => decide (r.1 ≤ i ∧ i ≤ r.2)))) =
          Except.ok bm := h
    by_cases h1 : (rs.any fun r => decide (r.2 < r.1)) = true
    · rw [if_pos h1] at h
      exact absurd h (by simp)
    · rw [if_neg h1] at h
      by_cases h2 : (rs.any fun r => decide (nbits ≤ r.2)) = true
      · rw [if_pos h2] at h
        exact absurd h (by simp)
      · rw [if_neg h2] at h
        exact ⟨rs, ((Except.ok.injEq _ _).mp h).symm⟩

/-! ## Claim theorems -/

/-- Claim C3: the request string "gpio0 1,3-4 gpio1 2" parses to
exactly the line references (gpio0,1), (gpio0,3), (gpio0,4), (gpio1,2)
in that order, with dense lookup indices 0, 1, 2, 3 (the indices that
become the forwarder's externally visible line positions). -/
theorem aggr_parse_concrete_order :
    aggrParse (tokenize "gpio0 1,3-4 gpio1 2") =
      .ok [⟨"gpio0".data, 1, 0⟩, ⟨"gpio0".data, 3, 1⟩,
           ⟨"gpio0".data, 4, 2⟩, ⟨"gpio1".data, 2, 3⟩] := by rfl

/-- Claim C4, counterexample: the request "chipA 3,3", whose list
expression contains a duplicate offset, does NOT fail: `aggr_parse`
succeeds and yields a single (chipA, 3) lookup entry, because the
offsets pass through a bitmap which collapses duplicates.  No
duplicate-line error exists in the code. -/
theorem aggr_parse_duplicate_offsets_ok :
    aggrParse (tokenize "chipA 3,3") = .ok [⟨"chipA".data, 3, 0⟩] := by rfl

/-- Claim C4, amended: duplicate offsets within one controller's list
expression are silently collapsed by the per-expression bitmap — the
expanded offsets of a list expression are strictly ascending, hence
duplicate-free, and "chipA 3,3" parses identically to "chipA 3". -/
theorem aggr_parse_duplicates_collapsed :
    (∀ (l : List Char) (bm : List Nat),
        bitmapParselist l AGGREGATOR_MAX_GPIOS = .ok bm → bm.Pairwise (· < ·))
    ∧ aggrParse (tokenize "chipA 3,3") = aggrParse (tokenize "chipA 3") := by
  constructor
  · intro l bm h
    obtain ⟨rs, rfl⟩ := bitmapParselist_ok_shape h
    exact (List.pairwise_lt_range _).filter _
  · rfl

/-- Witness for the amended C4: the list expression "3,3" expands to
the strictly ascending bitmap [3]. -/
theorem aggr_parse_duplicates_collapsed_witness :
    [3].Pairwise (· < ·) :=
  aggr_parse_duplicates_collapsed.1 "3,3".data [3] (by rfl)

/-- Claim C5: with a delay table present, a single-line set selects the
ramp-up delay on a rising transition — (not active_low and value) or
(active_low and not value) — and the ramp-down delay otherwise, waits
with `fsleep` when the forwarder can block and `udelay` otherwise, and
performs no wait at all when the selected delay is zero.  In
particular, with ramp config (rising = 0, falling = 200us) on position
0 and a non-inverted line, a set to active returns without any wait and
a set to inactive waits 200us. -/
theorem gpio_fwd_set_delay_spec :
    (∀ (P : Provider) (fwd : FwdState) (ts : List FwdTiming) (off : Nat) (v : Bool),
        fwd.delay_timings = some ts →
        (gpio_fwd_set P fwd off v).2 =
          (let rising := (!(P.activeLow (handleAt fwd off)) && v) ||
                         (P.activeLow (handleAt fwd off) && !v)
           let d := if rising then (ts.getD off ⟨0, 0⟩).ramp_up_us
                    else (ts.getD off ⟨0, 0⟩).ramp_down_us
           if d = 0 then none
           else some (if fwd.can_sleep then WaitKind.sleep else WaitKind.busy, d)))
    ∧ (∀ (P : Provider) (fwd : FwdState) (ts : List FwdTiming),
        fwd.delay_timings = some ts →
        ts.getD 0 ⟨0, 0⟩ = ⟨0, 200⟩ →
        P.activeLow (handleAt fwd 0) = false →
        (gpio_fwd_set P fwd 0 true).2 = none ∧
        (gpio_fwd_set P fwd 0 false).2 =
          some (if fwd.can_sleep then WaitKind.sleep else WaitKind.busy, 200)) := by
  have part1 : ∀ (P : Provider) (fwd : FwdState) (ts : List FwdTiming) (off : Nat) (v : Bool),
      fwd.delay_timings = some ts →
      (gpio_fwd_set P fwd off v).2 =
        (let rising := (!(P.activeLow (handleAt fwd off)) && v) ||
                       (P.activeLow (handleAt fwd off) && !v)
         let d := if rising then (ts.getD off ⟨0, 0⟩).ramp_up_us
                  else (ts.getD off ⟨0, 0⟩).ramp_down_us
         if d = 0 then none
         else some (if fwd.can_sleep then WaitKind.sleep else WaitKind.busy, d)) := by
    intro P fwd ts off v h
    simp [gpio_fwd_set, gpio_fwd_delay, h]
  refine ⟨part1, ?_⟩
  intro P fwd ts h ht hal
  constructor
  · rw [part1 P fwd ts 0 true h, ht, hal]
    rfl
  · rw [part1 P fwd ts 0 false h, ht, hal]
    rfl

/-- Witness for C5 at a concrete forwarder: with ramp (0, 200us) on
position 0 of a non-blocking forwarder, the set-to-active performs no
wait and the set-to-inactive busy-waits 200us. -/
theorem gpio_fwd_set_delay_spec_witness :
    (gpio_fwd_set provider0 fwdD 0 true).2 = none ∧
    (gpio_fwd_set provider0 fwdD 0 false).2 = some (WaitKind.busy, 200) := by
  have h := gpio_fwd_set_delay_spec.2 provider0 fwdD [⟨0, 200⟩] (by rfl) (by rfl) (by rfl)
  simpa [fwdD] using h

/-- Claim C6: in the parse loop, the token following a pending label is
consumed as an offset-list expression iff it parses entirely as
integers/ranges; when it does not, the pending label is emitted as one
named line reference (hwnum = U16_MAX) occupying one position, and the
token becomes the next label to parse. -/
theorem aggr_parse_token_disambiguation :
    (∀ (name tok : List Char) (rest : List (List Char)) (n : Nat) (acc : List GLookup),
        isListExpr tok = false →
        aggrLoop (tok :: rest) (some name) n acc =
          aggrLoop rest (some tok) (n + 1) (acc ++ [⟨name, U16_MAX, n⟩]))
    ∧ (∀ (name tok : List Char) (rest : List (List Char)) (n : Nat) (acc : List GLookup)
        (bm : List Nat),
        isListExpr tok = true →
        bitmapParselist tok AGGREGATOR_MAX_GPIOS = .ok bm →
        aggrLoop (tok :: rest) (some name) n acc =
          aggrLoop rest none (n + bm.length) (acc ++ bm.mapIdx (fun k i => ⟨name, i, n + k⟩))) := by
  constructor
  · intro name tok rest n acc h
    simp [aggrLoop, h]
  · intro name tok rest n acc bm h1 h2
    simp [aggrLoop, h1, h2]

/-- Witness for C6: "foo" is not a list expression, so the pending
label "a" is emitted as a named line and "foo" becomes the next label;
"3" is a list expression and is consumed as offsets for label "a". -/
theorem aggr_parse_token_disambiguation_witness :
    aggrLoop ["foo".data] (some "a".data) 0 [] =
      aggrLoop [] (some "foo".data) (0 + 1) ([] ++ [⟨"a".data, U16_MAX, 0⟩]) ∧
    aggrLoop ["3".data] (some "a".data) 0 [] =
      aggrLoop [] none (0 + [3].length) ([] ++ [3].mapIdx (fun k i => ⟨"a".data, i, 0 + k⟩)) :=
  ⟨aggr_parse_token_disambiguation.1 "a".data "foo".data [] 0 [] (by rfl),
   aggr_parse_token_disambiguation.2 "a".data "3".data [] 0 [] [3] (by rfl) (by rfl)⟩

/-- Claim C7: creating a device from the empty request string fails
with -EINVAL ("No GPIOs specified"), leaves the registry's id map
exactly as it was (the id allocated before parsing is removed again on
the unwind path), and publishes no device. -/
theorem new_device_store_empty_input (reg : Registry) :
    new_device_store reg "" = (.error EINVAL, reg) := by
  have h : aggrParse (tokenize "") = .error EINVAL := rfl
  unfold new_device_store
  rw [h]
  simp [List.erase_cons_head]

/-- Claim C8, counterexample: a request whose expansion totals 513
offsets — beyond the claimed 512-position cap — parses successfully:
only each individual list expression's offsets are bounded by the
512-bit scratch bitmap, the total across tokens is never checked. -/
theorem aggr_parse_total_not_capped :
    (aggrParse (tokenize "a 0-511 b 0")).toOption.map List.length = some 513 := by rfl

/-- Claim C8, amended: the 512 bound is per list expression, not per
request: a list expression that fails `bitmap_parselist` (in
particular one mentioning an offset ≥ 512, which yields -ERANGE) makes
the whole parse fail with that error, and a successful list expression
contributes at most 512 lines, all with hardware offsets < 512. -/
theorem aggr_parse_offset_bound :
    (∀ (name offsets : List Char) (rest : List (List Char)) (n : Nat) (acc : List GLookup)
        (e : Int),
        isListExpr offsets = true →
        bitmapParselist offsets AGGREGATOR_MAX_GPIOS = .error e →
        aggrLoop (offsets :: rest) (some name) n acc = .error e)
    ∧ (∀ (l : List Char) (bm : List Nat),
        bitmapParselist l AGGREGATOR_MAX_GPIOS = .ok bm →
        bm.length ≤ AGGREGATOR_MAX_GPIOS ∧ ∀ i ∈ bm, i < AGGREGATOR_MAX_GPIOS) := by
  constructor
  · intro name offsets rest n acc e h1 h2
    simp [aggrLoop, h1, h2]
  · intro l bm h
    obtain ⟨rs, rfl⟩ := bitmapParselist_ok_shape h
    constructor
    · simpa using List.length_filter_le _ (List.range AGGREGATOR_MAX_GPIOS)
    · intro i hi
      exact List.mem_range.mp (List.mem_filter.mp hi).1

/-- Witness for the amended C8: the list expression "600" fails with
-ERANGE (600 ≥ 512), and "3" expands to one in-range offset. -/
theorem aggr_parse_offset_bound_witness :
    aggrLoop ["600".data] (some "a".data) 0 [] = .error ERANGE ∧
    ([3].length ≤ AGGREGATOR_MAX_GPIOS ∧ ∀ i ∈ [3], i < AGGREGATOR_MAX_GPIOS) :=
  ⟨aggr_parse_offset_bound.1 "a".data "600".data [] 0 [] ERANGE (by rfl) (by rfl),
   aggr_parse_offset_bound.2 "3".data [3] (by rfl)⟩

/-- Claim C10 (code bug): `gpio_fwd_add_gpio_desc` checks
`offset > chip->ngpio` instead of `offset >= chip->ngpio`, so the
out-of-range offset `offset = ngpio` is accepted: on a one-line
forwarder, binding at offset 1 returns success (and in C writes
`fwd->descs[1]`, one past the end of the one-element `descs` array)
instead of the -EINVAL the intended 0..ngpio-1 range requires.  In the
list model the out-of-bounds store is a no-op, so the descriptor also
silently vanishes. -/
theorem gpio_fwd_add_gpio_desc_accepts_ngpio :
    gpio_fwd_add_gpio_desc provider0 (freshFwd 1) 7 1 =
      .ok { ngpio := 1, descs := [none], can_sleep := false, delay_timings := none } := by rfl

/-- Claim C1: `gpio_fwd_get_multiple_locked` runs the batched read
under the forwarder's lock; the batched read clears the scratch value
region, compacts the masked descriptors in ascending position order,
issues one provider-level batched read on the compacted list, and on
success returns the caller's bitset with the read booleans written
back at the original (non-compacted) positions, all other positions
untouched.  A provider-level read failure is propagated as-is and the
caller's output bitset receives no partial results (the error case
produces no output bits at all). -/
theorem gpio_fwd_get_multiple_locked_spec (P : Provider) (fwd : FwdState)
    (mask bits : List Bool) (hm : mask.length = fwd.ngpio)
    (hb : bits.length = fwd.ngpio) (hd : fwd.descs.length = fwd.ngpio) :
    (∀ e, P.readErr = some e →
        gpio_fwd_get_multiple_locked P fwd mask bits = .error e)
    ∧ (P.readErr = none →
        ∃ out, gpio_fwd_get_multiple_locked P fwd mask bits = .ok out ∧
          out.length = fwd.ngpio ∧
          ∀ i, i < fwd.ngpio →
            out.getD i false =
              if mask.getD i false then P.vals (handleAt fwd i)
              else bits.getD i false) := by
  have hlock : gpio_fwd_get_multiple_locked P fwd mask bits =
      gpio_fwd_get_multiple P fwd mask bits := by
    unfold gpio_fwd_get_multiple_locked
    exact ite_self _
  constructor
  · intro e he
    rw [hlock]
    simp [gpio_fwd_get_multiple, gpiod_get_array_value, he]
  · intro he
    rw [hlock]
    have hmm : ((compactSel mask fwd.descs).map (fun o => o.getD 0)).map P.vals =
        (compactSel mask fwd.descs).map (fun o => P.vals (o.getD 0)) := by
      simp [List.map_map, Function.comp]
    have hcall : gpio_fwd_get_multiple P fwd mask bits =
        .ok (expandGo
              ((compactSel mask fwd.descs).map (fun o => P.vals (o.getD 0)) ++
               (List.replicate fwd.ngpio false).drop
                 ((compactSel mask fwd.descs).map (fun o => o.getD 0)).length)
              mask bits 0) := by
      simp only [gpio_fwd_get_multiple, gpiod_get_array_value, he]
      rw [hmm]
    refine ⟨_, hcall, ?_, ?_⟩
    · rw [expandGo_eq_consume, List.drop_zero,
        expandConsume_length mask bits _ (hb.trans hm.symm)]
      exact hb
    · intro i hi
      rw [expandGo_eq_consume, List.drop_zero]
      have := expandConsume_spec (fun o => P.vals (o.getD 0)) mask fwd.descs bits
        ((List.replicate fwd.ngpio false).drop
          ((compactSel mask fwd.descs).map (fun o => o.getD 0)).length) i
        (hd.trans hm.symm) (hb.trans hm.symm) (by omega)
      simpa [handleAt] using this

/-- Witness for C1 at concrete inputs: reading mask [true, false] on a
two-line forwarder bound to handles 4 (reads false) and 9 (reads true)
with caller bits [false, true] yields position 0 = value of handle 4
and position 1 = the untouched caller bit. -/
theorem gpio_fwd_get_multiple_locked_spec_witness :
    ∃ out, gpio_fwd_get_multiple_locked providerV fwdTwo [true, false] [false, true] =
        .ok out ∧
      out.length = fwdTwo.ngpio ∧
      ∀ i, i < fwdTwo.ngpio →
        out.getD i false =
          if [true, false].getD i false then providerV.vals (handleAt fwdTwo i)
          else [false, true].getD i false :=
  (gpio_fwd_get_multiple_locked_spec providerV fwdTwo [true, false] [false, true]
    (by rfl) (by rfl) (by rfl)).2 (by rfl)

/-- Claim C2: after `gpio_fwd_register`, `can_sleep` equals the OR of
the sleep capability of every descriptor successfully added through
`gpio_fwd_add_gpio_desc`, ORed with whether fewer slots are bound than
the declared line count; and the lock kind is the spinlock iff
`can_sleep` is false (the mutex otherwise). -/
theorem gpio_fwd_register_can_sleep_spec (P : Provider) (n : Nat) (calls : List (Nat × Nat))
    (f : FwdState) (h : addManyE P (freshFwd n) calls = .ok f) :
    (gpio_fwd_register f).1.can_sleep =
      (calls.any (fun c => P.cansleep c.1) || decide (boundCount f < n))
    ∧ ((gpio_fwd_register f).2 = LockKind.spin ↔
        (gpio_fwd_register f).1.can_sleep = false) := by
  obtain ⟨hn, _, hcs⟩ := addManyE_state calls (freshFwd n) f h
  simp only [freshFwd] at hn hcs
  rw [Bool.false_or] at hcs
  have hble : boundCount f ≤ f.ngpio := by
    unfold boundCount
    calc (List.range f.ngpio).countP (fun i => (f.descs.getD i none).isSome)
        ≤ (List.range f.ngpio).length := List.countP_le_length _
      _ = f.ngpio := List.length_range _
  have hne : decide (boundCount f ≠ f.ngpio) = decide (boundCount f < n) := by
    apply decide_eq_decide.mpr
    omega
  have h1 : (gpio_fwd_register f).1.can_sleep =
      (f.can_sleep || decide (boundCount f ≠ f.ngpio)) := rfl
  have h2 : (gpio_fwd_register f).2 =
      (if (f.can_sleep || decide (boundCount f ≠ f.ngpio)) = true then LockKind.mutex
       else LockKind.spin) := rfl
  constructor
  · rw [h1, hcs, hne]
  · rw [h1, h2]
    cases (f.can_sleep || decide (boundCount f ≠ f.ngpio)) <;> simp

/-- Witness for C2: one non-sleeping descriptor bound at position 0 of
a one-line forwarder gives `can_sleep = false` and the spinlock. -/
theorem gpio_fwd_register_can_sleep_spec_witness :
    ((gpio_fwd_register fwdW).1.can_sleep =
      ([(5, 0)].any (fun c => provider0.cansleep c.1) || decide (boundCount fwdW < 1)))
    ∧ ((gpio_fwd_register fwdW).2 = LockKind.spin ↔
        (gpio_fwd_register fwdW).1.can_sleep = false) :=
  gpio_fwd_register_can_sleep_spec provider0 1 [(5, 0)] fwdW (by rfl)

/-- Claim C9: the batched write path performs no ramp wait whatsoever
— even when a delay table is present and configured (the forwarder is
arbitrary here, including any `delay_timings`) — and issues exactly the
one compacted provider-level batched write: the provider ends up as
`gpiod_set_array_value` applied to the compacted handle and value
lists, handles outside the compacted list keep their values, and (for
pairwise-distinct compacted handles) every masked position's handle is
set to that position's bit.  Only the single-line set
(`gpio_fwd_set`, claim C5) applies the ramp delay. -/
theorem gpio_fwd_set_multiple_no_delay (P : Provider) (fwd : FwdState) (mask bits : List Bool) :
    (gpio_fwd_set_multiple_locked P fwd mask bits).2 = []
    ∧ (gpio_fwd_set_multiple_locked P fwd mask bits).1 =
        gpiod_set_array_value P ((compactSel mask fwd.descs).map (fun o => o.getD 0))
          (compactSel mask bits)
    ∧ (∀ h, h ∉ (compactSel mask fwd.descs).map (fun o => o.getD 0) →
        (gpio_fwd_set_multiple_locked P fwd mask bits).1.vals h = P.vals h)
    ∧ (((compactSel mask fwd.descs).map (fun o => o.getD 0)).Nodup →
        fwd.descs.length = fwd.ngpio → mask.length = fwd.ngpio → bits.length = fwd.ngpio →
        ∀ i, i < fwd.ngpio → mask.getD i false = true →
          (gpio_fwd_set_multiple_locked P fwd mask bits).1.vals (handleAt fwd i) =
            bits.getD i false) := by
  have hlock : gpio_fwd_set_multiple_locked P fwd mask bits =
      gpio_fwd_set_multiple P fwd mask bits := by
    unfold gpio_fwd_set_multiple_locked
    exact ite_self _
  refine ⟨by rw [hlock]; rfl, by rw [hlock]; rfl, ?_, ?_⟩
  · intro h hmem
    rw [hlock]
    exact set_array_vals_notin h _ _ P hmem
  · intro hnd hdl hml hbl i hi hmi
    rw [hlock]
    have := set_array_compact_spec (fun o => o.getD 0) mask fwd.descs bits P i hnd
      (hdl.trans hml.symm) (hbl.trans hml.symm) (by omega) hmi
    simpa [handleAt] using this

/-- Witness for C9 at concrete inputs: on the two-line forwarder with
a configured delay table, a batched write of [true, false] over mask
[true, true] performs no wait, leaves the unrelated handle 7
unchanged, and sets position 0's handle to true. -/
theorem gpio_fwd_set_multiple_no_delay_witness :
    (gpio_fwd_set_multiple_locked provider0 fwdTwo [true, true] [true, false]).2 = [] ∧
    (gpio_fwd_set_multiple_locked provider0 fwdTwo [true, true] [true, false]).1.vals 7 =
      provider0.vals 7 ∧
    (gpio_fwd_set_multiple_locked provider0 fwdTwo [true, true] [true, false]).1.vals
      (handleAt fwdTwo 0) = true :=
  ⟨(gpio_fwd_set_multiple_no_delay provider0 fwdTwo [true, true] [true, false]).1,
   (gpio_fwd_set_multiple_no_delay provider0 fwdTwo [true, true] [true, false]).2.2.1 7
     (by decide),
   by
     have := (gpio_fwd_set_multiple_no_delay provider0 fwdTwo
       [true, true] [true, false]).2.2.2 (by decide) (by rfl) (by rfl) (by rfl) 0
       (by decide) (by rfl)
     simpa using this⟩

end GpioAggr
